import Mathlib

/-
Verification of the CNA (Common Neighbor Analysis) core of new_CNAP_lib.

This file shallowly embeds `cnap_lib/analysis.py`: the `Graph` class
(adjacency matrix, derived adjacency list, induced subgraphs, bond
enumeration, longest-chain traversal) and the signature / CNAP /
classification pipeline (`compute_signatures`, `get_occurrences`,
`get_CNAPs`, `unique_CNAPs`, `group_CNAPs`).

Modelling conventions:
- numpy integer matrices become `List (List Nat)`; numpy row/column fancy
  indexing with its negative-index wrap-around becomes `npIndex`;
- node positions (numpy float N×3 arrays, carried opaquely by the core and
  never subjected to arithmetic) become lists of opaque coordinate triples
  `Pos := Int × Int × Int`; the Python default argument `[]` is the empty
  list;
- Python exceptions become `Except Err`; `Err.indexError` models numpy
  `IndexError`, `Err.typeError` models the `TypeError` raised when the
  Python-list default `[]` of `positions` is indexed with an index array;
- the `while` loop of `longest_chain_from_node` is run on explicit fuel
  (`Err.fuelExhausted` / `none` when the fuel runs out; the chosen bound
  `total adjacency size + 2` dominates the loop's pop count, and every
  concrete evaluation below completes);
- `np.unique(…, axis=0)` (sorted distinct rows, with counts) becomes
  dedup + insertion sort under an explicit lexicographic order.
-/

deriving instance DecidableEq for Except

namespace CnapLib

/-- Opaque stand-in for a node position (a 3-vector; the core only ever
re-indexes positions, never computes with them). -/
abbrev Pos := Int × Int × Int

/-- Error conditions surfaced by the embedded operations. -/
inductive Err where
  | indexError : Err
  | typeError : Err
  | fuelExhausted : Err
deriving DecidableEq, Repr

/-- CNA signature triple `(n, b, l)`. -/
abbrev Sig := Nat × Nat × Nat

/-- A CNAP: per-node list of `(signature, count)` pairs. -/
abbrev CNAP := List (Sig × Nat)

/-- The `Graph` object: adjacency matrix, optional positions (the Python
default `[]` is modelled by the empty list), optional root node. The
adjacency list is derived (`make_adj_list`); in the source it is computed
once in `__init__` and the matrix is never mutated afterwards, so the
derived value always agrees with the stored one. -/
structure Graph where
  adj_mat : List (List Nat)
  positions : List Pos
  root_node : Option Int
deriving DecidableEq, Repr

/-- Helper for `fill_diagonal`: clears entry `k + i` of row `i`. -/
def fillDiagAux : Nat → List (List Nat) → List (List Nat)
  | _, [] => []
  | k, row :: rest => row.set k 0 :: fillDiagAux (k + 1) rest

/-- np.fill_diagonal(m, 0): zero the entries `m[i][i]` (a no-op on rows
shorter than `i + 1`, matching numpy's diagonal of a non-square matrix). -/
def fill_diagonal (m : List (List Nat)) : List (List Nat) :=
  fillDiagAux 0 m

/-- Graph.__init__: store the matrix, zero its diagonal when `fill_diag`
is set, keep positions and root as given. No shape validation occurs. -/
def Graph.init (adj_mat : List (List Nat)) (node_positions : List Pos)
    (fill_diag : Bool) (root_node : Option Int) : Graph :=
  { adj_mat := if fill_diag then fill_diagonal adj_mat else adj_mat
    positions := node_positions
    root_node := root_node }

/-- Graph.make_adj_list: for each row, the indices `j` with `row[j] == 1`
(np.where returns them in increasing order). -/
def make_adj_list (m : List (List Nat)) : List (List Nat) :=
  m.map (fun row => (List.range row.length).filter (fun j => row.getD j 0 == 1))

/-- Entry `(i, j)` of the adjacency matrix, `0` outside the matrix. -/
def entry (g : Graph) (i j : Nat) : Nat :=
  (g.adj_mat.getD i []).getD j 0

/-- Graph.number_of_nodes: `adj_mat.shape[0]`. -/
def Graph.number_of_nodes (g : Graph) : Nat :=
  g.adj_mat.length

/-- numpy index semantics along an axis of length `n`: indices in
`[0, n)` are taken as is, indices in `[-n, 0)` wrap to `n + i`, anything
else is out of bounds. -/
def npIndex (n : Nat) (i : Int) : Option Nat :=
  if 0 ≤ i ∧ i < (n : Int) then some i.toNat
  else if -(n : Int) ≤ i ∧ i < 0 then some (i + n).toNat
  else none

/-- Resolve a whole index array against an axis of length `n`; the first
out-of-bounds value raises `IndexError`. -/
def resolveIndices (n : Nat) : List Int → Except Err (List Nat)
  | [] => Except.ok []
  | i :: is =>
    match npIndex n i with
    | some k => (resolveIndices n is).map (fun ks => k :: ks)
    | none => Except.error Err.indexError

/-- Graph.make_subgraph: `adj_mat[np.ix_(nodes, nodes)]` (a copy; rows
checked against `shape[0]`, columns against `shape[1]`), diagonal cleared,
then `Graph(sub_adj_mat, self.positions[nodes])`. The guard
`self.positions is not []` in the source compares object identity with a
fresh list and is therefore always True, so `self.positions` is indexed
unconditionally: when it is the Python-list default `[]`, indexing it with
the numpy index array raises (`Err.typeError`). -/
def Graph.make_subgraph (g : Graph) (nodes : List Int) : Except Err Graph := do
  let rIdx ← resolveIndices g.adj_mat.length nodes
  let cIdx ← resolveIndices (g.adj_mat.headD []).length nodes
  let sub_adj_mat :=
    fill_diagonal (rIdx.map (fun i => cIdx.map (fun j => (g.adj_mat.getD i []).getD j 0)))
  let pIdx ←
    if g.positions.isEmpty then Except.error Err.typeError
    else resolveIndices g.positions.length nodes
  Except.ok (Graph.init sub_adj_mat (pIdx.map (fun i => g.positions.getD i (0, 0, 0))) true none)

/-- One pop of the explicit-stack traversal of
`Graph.longest_chain_from_node`, run on fuel. The stack head is the top
(Python appends to and pops from the end of its list); pushing the
neighbors in adjacency-list order with a left fold reproduces Python's
pop order. A popped node is marked discovered before its neighbors are
scanned; the scan updates the running maximum to `l + 1` on a ring
closure (`2 ≤ l` and the neighbor is the start node) and pushes the
undiscovered neighbors. -/
def lcLoop (adj : List (List Nat)) (start : Nat) :
    Nat → List (Nat × Nat) → List Nat → Nat → Option Nat
  | 0, _, _, _ => none
  | _ + 1, [], _, maxLen => some maxLen
  | fuel + 1, (v, l) :: rest, discovered, maxLen =>
    if v ∈ discovered then
      lcLoop adj start fuel rest discovered maxLen
    else
      let discovered' := discovered ++ [v]
      let st := (adj.getD v []).foldl
        (fun (p : List (Nat × Nat) × Nat) w =>
          ((if w ∈ discovered' then p.1 else (w, l + 1) :: p.1),
           if 2 ≤ l ∧ w = start then max p.2 (l + 1) else p.2))
        (rest, max maxLen l)
      lcLoop adj start fuel st.1 discovered' st.2

/-- Fuel bound for the traversal: every pop removes a stack entry and
entries are created only once per discovered node's neighbor, so the
total adjacency size plus two dominates the number of iterations. -/
def lc_fuel (adj : List (List Nat)) : Nat :=
  (adj.map List.length).sum + 2

/-- Graph.longest_chain_from_node: the modified depth-first search of the
source, started from `(starting_node, 0)` with nothing discovered. -/
def Graph.longest_chain_from_node (g : Graph) (starting_node : Nat) : Option Nat :=
  let adj := make_adj_list g.adj_mat
  lcLoop adj starting_node (lc_fuel adj) [(starting_node, 0)] [] 0

/-- Graph.longest_chain: maximum of `longest_chain_from_node` over all
nodes. -/
def Graph.longest_chain (g : Graph) : Option Nat :=
  let adj := make_adj_list g.adj_mat
  ((List.range adj.length).mapM (fun i => g.longest_chain_from_node i)).map
    (fun ls => ls.foldl max 0)

/-- Lexicographic order on index pairs, as used by `np.unique(…, axis=0)`
on an array of pairs. -/
def pairLE (a b : Nat × Nat) : Prop :=
  a.1 < b.1 ∨ (a.1 = b.1 ∧ a.2 ≤ b.2)

instance : DecidableRel pairLE := fun a b => by
  unfold pairLE; exact inferInstance

instance : IsTotal (Nat × Nat) pairLE := ⟨by
  intro a b; unfold pairLE; omega⟩

instance : IsTrans (Nat × Nat) pairLE := ⟨by
  intro a b c; unfold pairLE; omega⟩

/-- np.argwhere(m == 1): the positions of the 1-entries, in row-major
order. -/
def argwhere_eq_one (m : List (List Nat)) : List (Nat × Nat) :=
  (List.range m.length).flatMap (fun i =>
    (List.range (m.getD i []).length).filterMap (fun j =>
      if (m.getD i []).getD j 0 = 1 then some (i, j) else none))

/-- np.unique(pairs, axis=0): the distinct pairs in ascending
lexicographic order. -/
def np_unique_pairs (l : List (Nat × Nat)) : List (Nat × Nat) :=
  List.insertionSort pairLE l.dedup

/-- Graph.unique_bonds: argwhere the 1-entries, sort each pair, drop
duplicates (np.unique also sorts the surviving pairs). -/
def Graph.unique_bonds (g : Graph) : List (Nat × Nat) :=
  np_unique_pairs ((argwhere_eq_one g.adj_mat).map (fun p => (min p.1 p.2, max p.1 p.2)))

/-- Graph.number_of_unique_bonds. -/
def Graph.number_of_unique_bonds (g : Graph) : Nat :=
  g.unique_bonds.length

/-- np.intersect1d: sorted distinct common values (its arguments here,
np.where rows, are already sorted and duplicate-free). -/
def np_intersect1d (a b : List Nat) : List Nat :=
  List.insertionSort (fun x y => x ≤ y) ((a.filter (fun x => decide (x ∈ b))).dedup)

/-- Sequential effectful map over `Except`, as a Python list comprehension
propagating the first exception. -/
def mapE {α β : Type} (f : α → Except Err β) : List α → Except Err (List β)
  | [] => Except.ok []
  | x :: xs =>
    match f x with
    | Except.ok y =>
      match mapE f xs with
      | Except.ok ys => Except.ok (y :: ys)
      | Except.error e => Except.error e
    | Except.error e => Except.error e

/-- get_cns_subgraphs: one common-neighbor subgraph per bond, aligned with
`unique_bonds`. -/
def get_cns_subgraphs (g : Graph) : Except Err (List Graph) :=
  mapE (fun b =>
      g.make_subgraph ((np_intersect1d ((make_adj_list g.adj_mat).getD b.1 [])
        ((make_adj_list g.adj_mat).getD b.2 [])).map Int.ofNat))
    g.unique_bonds

/-- compute_signatures: reduce each common-neighbor subgraph to
`(number_of_nodes, number_of_unique_bonds, longest_chain)`. -/
def compute_signatures (g : Graph) : Except Err (List Sig) :=
  match get_cns_subgraphs g with
  | Except.ok subgraphs =>
    mapE (fun s =>
        match s.longest_chain with
        | some k => Except.ok (s.number_of_nodes, s.number_of_unique_bonds, k)
        | none => Except.error Err.fuelExhausted)
      subgraphs
  | Except.error e => Except.error e

/-- Lexicographic order on signature triples, as used by
`np.unique(signatures, axis=0)`. -/
def sigLE (a b : Sig) : Prop :=
  a.1 < b.1 ∨ (a.1 = b.1 ∧ (a.2.1 < b.2.1 ∨ (a.2.1 = b.2.1 ∧ a.2.2 ≤ b.2.2)))

instance : DecidableRel sigLE := fun a b => by
  unfold sigLE; exact inferInstance

instance : IsTotal Sig sigLE := ⟨by
  intro a b; unfold sigLE; omega⟩

instance : IsTrans Sig sigLE := ⟨by
  intro a b c; unfold sigLE; omega⟩

/-- np.unique(signatures, axis=0): distinct triples in ascending
lexicographic order. -/
def np_unique_sigs (l : List Sig) : List Sig :=
  List.insertionSort sigLE l.dedup

/-- get_occurrences: each distinct signature paired with its multiplicity,
in the order produced by np.unique. -/
def get_occurrences (signatures : List Sig) : List (Sig × Nat) :=
  (np_unique_sigs signatures).map (fun s => (s, signatures.count s))

/-- sigs_per_node[n].append(s). An out-of-range `n` leaves the list
unchanged; the bonds produced by `unique_bonds` keep `n` in range. -/
def appendAt (l : List (List Sig)) (n : Nat) (s : Sig) : List (List Sig) :=
  l.set n (l.getD n [] ++ [s])

/-- The distribution loop of get_CNAPs: each `(signature, bond)` pair
appends the signature to both endpoints' lists. -/
def distributeSigs (ps : List (Sig × (Nat × Nat))) (acc : List (List Sig)) :
    List (List Sig) :=
  ps.foldl (fun acc p => appendAt (appendAt acc p.2.1 p.1) p.2.2 p.1) acc

/-- get_CNAPs: distribute the bond signatures to the endpoints, then
reduce each node's list through get_occurrences. -/
def get_CNAPs (g : Graph) : Except Err (List CNAP) :=
  match compute_signatures g with
  | Except.ok sigs =>
    Except.ok ((distributeSigs (sigs.zip g.unique_bonds)
        (List.replicate g.number_of_nodes [])).map get_occurrences)
  | Except.error e => Except.error e

/-- The accumulation loop of unique_CNAPs: append each value not yet
present. -/
def uniqAux : List CNAP → List CNAP → List CNAP
  | [], acc => acc
  | x :: xs, acc => uniqAux xs (if x ∈ acc then acc else acc ++ [x])

/-- unique_CNAPs: distinct CNAPs in order of first appearance. -/
def unique_CNAPs (CNAPs : List CNAP) : List CNAP :=
  uniqAux CNAPs []

/-- The index list `[i for i, comp in enumerate(CNAPs) if comp == key]`. -/
def matching (CNAPs : List CNAP) (key : CNAP) : List Nat :=
  (List.range CNAPs.length).filter (fun i => decide (CNAPs.getD i [] = key))

/-- group_CNAPs: the distinct CNAPs and, for each, the indices carrying
it. -/
def group_CNAPs (CNAPs : List CNAP) : List CNAP × List (List Nat) :=
  let keys := unique_CNAPs CNAPs
  (keys, keys.map (matching CNAPs))

/-- make_neighbors_subgraph: the subgraph over a node's neighbors with the
node itself appended last. -/
def make_neighbors_subgraph (g : Graph) (index : Nat) : Except Err Graph :=
  g.make_subgraph ((((make_adj_list g.adj_mat).getD index []) ++ [index]).map Int.ofNat)

/-- State-passing view of `Graph.__init__` for the caller's matrix: the
constructor stores the argument array itself (`self.adj_mat = adj_mat`)
and `np.fill_diagonal` then writes through that alias, so after the call
the caller's array holds the diagonal-cleared matrix. -/
def callerMatrixAfterInit (adj_mat : List (List Nat)) (fill_diag : Bool) :
    List (List Nat) :=
  if fill_diag then fill_diagonal adj_mat else adj_mat

/-- State-passing view of `make_subgraph` for the parent's matrix: fancy
indexing (`adj_mat[np.ix_(nodes, nodes)]`) returns a fresh copy, so the
in-place diagonal clearing acts on the copy and the parent's matrix is
returned unchanged. -/
def make_subgraphWithParent (g : Graph) (nodes : List Int) :
    Except Err Graph × List (List Nat) :=
  (g.make_subgraph nodes, g.adj_mat)

/-! Concrete instances used by the concrete claims and the witnesses. -/

/-- The triangle graph 0-1, 1-2, 0-2 (no positions). -/
def triGraph : Graph :=
  Graph.init [[0, 1, 1], [1, 0, 1], [1, 1, 0]] [] true none

/-- The fully connected 4-node graph, carrying one position per node. -/
def k4Graph : Graph :=
  Graph.init [[0, 1, 1, 1], [1, 0, 1, 1], [1, 1, 0, 1], [1, 1, 1, 0]]
    [(0, 0, 0), (1, 0, 0), (0, 1, 0), (0, 0, 1)] true none

/-- A single bond on two nodes, no positions (the Python default `[]`). -/
def g2Graph : Graph :=
  Graph.init [[0, 1], [1, 0]] [] true none

/-- A single bond on two nodes, with one position per node. -/
def g2posGraph : Graph :=
  Graph.init [[0, 1], [1, 0]] [(0, 0, 0), (1, 1, 1)] true none

/-- C1: `make_subgraph` does not succeed on a Graph without positions. The
source's guard `self.positions is not []` is an identity comparison with a
fresh list and is always True, so the Python-list default `[]` is indexed
with the numpy index array and a `TypeError` is raised, although the
comment on the very line claims the no-positions case is handled. The
claim (and the source's own comment) say the call succeeds; evaluating the
embedded code at an in-range index list on a positionless graph yields the
error instead. -/
theorem make_subgraph_no_positions_raises :
    g2Graph.make_subgraph [0, 1] = Except.error Err.typeError := by
  decide

/-- C2: on the triangle 0-1, 1-2, 0-2, the traversal from node 0 returns
3: the ring-closure special case (depth at least 2 and the neighbor equals
the start) updates the maximum to depth + 1, over-counting relative to a
simple-path definition. -/
theorem triangle_longest_chain_overcount :
    triGraph.longest_chain_from_node 0 = some 3 := by
  decide

/-- C3: on the fully connected 4-node graph every one of the 6 bonds gets
signature (2, 1, 1), `get_CNAPs` gives all 4 nodes the same CNAP
[((2, 1, 1), 3)], and `group_CNAPs` on those CNAPs returns exactly one
group holding all 4 node indices. -/
theorem k4_signatures_cnaps_groups :
    compute_signatures k4Graph = Except.ok (List.replicate 6 (2, 1, 1))
    ∧ get_CNAPs k4Graph = Except.ok (List.replicate 4 [((2, 1, 1), 3)])
    ∧ group_CNAPs (List.replicate 4 [((2, 1, 1), 3)])
        = ([[((2, 1, 1), 3)]], [[0, 1, 2, 3]]) := by
  refine ⟨by decide, by decide, by decide⟩

/-- C7 counterexample: Graph construction performs no shape validation.
The non-square 2×3 matrix is accepted and a Graph object is produced (its
node count is the row count and its diagonal is cleared); no
shape-violation condition arises. In the source the only failing shapes
are arrays of dimension below 2, for which `np.fill_diagonal` itself
raises - that is not a squareness check. -/
theorem init_accepts_nonsquare :
    Graph.init [[1, 1, 1], [1, 1, 1]] [] true none
      = { adj_mat := [[0, 1, 1], [1, 0, 1]], positions := [], root_node := none } := by
  decide

/-- C8 counterexample: an index outside [0, N) need not fail. On the
two-node graph, the out-of-range value -1 is accepted by numpy's
negative-index wrap-around and selects node 1, returning a Graph. -/
theorem make_subgraph_negative_index_wraps :
    g2posGraph.make_subgraph [-1]
      = Except.ok { adj_mat := [[0]], positions := [(1, 1, 1)], root_node := none } := by
  decide

/-- C9 counterexample: constructing a Graph with the default diagonal fill
does mutate the caller's matrix in place. `self.adj_mat = adj_mat` stores
the argument array itself and `np.fill_diagonal` writes through it, so a
caller's matrix with a nonzero diagonal is changed by the construction. -/
theorem init_mutates_caller_matrix :
    callerMatrixAfterInit [[1, 0], [0, 1]] true ≠ [[1, 0], [0, 1]] := by
  decide

/-! Occurrence counting (claim C4). -/

/-- C4: `get_occurrences` returns one pair per distinct input triple, the
pairs ordered by ascending lexicographic comparison of the triple, the
count being the triple's multiplicity in the input. -/
theorem get_occurrences_spec (signatures : List Sig) :
    ((get_occurrences signatures).map Prod.fst).Sorted sigLE
    ∧ ((get_occurrences signatures).map Prod.fst).Nodup
    ∧ (∀ s : Sig, s ∈ (get_occurrences signatures).map Prod.fst ↔ s ∈ signatures)
    ∧ ∀ p ∈ get_occurrences signatures, p.2 = signatures.count p.1 := by
  have hmap : (get_occurrences signatures).map Prod.fst = np_unique_sigs signatures := by
    simp [get_occurrences, Function.comp_def]
  refine ⟨?_, ?_, ?_, ?_⟩
  · rw [hmap]
    exact List.sorted_insertionSort sigLE _
  · rw [hmap]
    exact ((List.perm_insertionSort sigLE _).nodup_iff).mpr (List.nodup_dedup _)
  · intro s
    rw [hmap]
    show s ∈ List.insertionSort sigLE signatures.dedup ↔ _
    rw [(List.perm_insertionSort sigLE _).mem_iff, List.mem_dedup]
  · intro p hp
    unfold get_occurrences at hp
    obtain ⟨s, _, rfl⟩ := List.mem_map.mp hp
    rfl

/-! Bond enumeration (claim C5). -/

/-- Membership in the row-major argwhere list. -/
theorem mem_argwhere {m : List (List Nat)} {p : Nat × Nat} :
    p ∈ argwhere_eq_one m ↔
      p.1 < m.length ∧ p.2 < (m.getD p.1 []).length ∧ (m.getD p.1 []).getD p.2 0 = 1 := by
  constructor
  · intro h
    rw [argwhere_eq_one, List.mem_flatMap] at h
    obtain ⟨i, hi, h2⟩ := h
    rw [List.mem_filterMap] at h2
    obtain ⟨j, hj, h3⟩ := h2
    rw [List.mem_range] at hi hj
    by_cases hc : (m.getD i []).getD j 0 = 1
    · rw [if_pos hc] at h3
      obtain rfl : (i, j) = p := Option.some.inj h3
      exact ⟨hi, hj, hc⟩
    · rw [if_neg hc] at h3
      exact Option.noConfusion h3
  · rintro ⟨h1, h2, h3⟩
    rw [argwhere_eq_one, List.mem_flatMap]
    refine ⟨p.1, List.mem_range.mpr h1, ?_⟩
    rw [List.mem_filterMap]
    exact ⟨p.2, List.mem_range.mpr h2, by rw [if_pos h3]⟩

/-- Membership in `unique_bonds`, reduced through the sort and the
deduplication to the argwhere list. -/
theorem mem_unique_bonds {g : Graph} {p : Nat × Nat} :
    p ∈ g.unique_bonds ↔
      ∃ q, q ∈ argwhere_eq_one g.adj_mat ∧ (min q.1 q.2, max q.1 q.2) = p := by
  unfold Graph.unique_bonds np_unique_pairs
  rw [(List.perm_insertionSort pairLE _).mem_iff, List.mem_dedup, List.mem_map]

/-- Every bond of a square zero-diagonal graph is strictly ordered and
in range. -/
theorem unique_bonds_mem_bounds {g : Graph}
    (hsq : ∀ row ∈ g.adj_mat, row.length = g.adj_mat.length)
    (hd : ∀ i < g.adj_mat.length, entry g i i ≠ 1)
    {p : Nat × Nat} (hp : p ∈ g.unique_bonds) :
    p.1 < p.2 ∧ p.2 < g.adj_mat.length := by
  rw [mem_unique_bonds] at hp
  obtain ⟨⟨a, b⟩, hq, hpq⟩ := hp
  rw [mem_argwhere] at hq
  obtain ⟨h1, h2, h3⟩ := hq
  have hrow : (g.adj_mat.getD a []).length = g.adj_mat.length := by
    apply hsq
    rw [List.getD_eq_getElem _ _ h1]
    exact List.getElem_mem h1
  have h2' : b < g.adj_mat.length := hrow ▸ h2
  have hne : a ≠ b := by
    intro he
    subst he
    exact hd a h1 h3
  subst hpq
  show min a b < max a b ∧ max a b < g.adj_mat.length
  omega

/-- C5: for every square symmetric graph with a diagonal free of 1
entries, `unique_bonds` holds exactly the pairs `(i, j)` with `i < j` and
relation entry 1, and it holds no duplicates. -/
theorem unique_bonds_spec (g : Graph)
    (hsq : ∀ row ∈ g.adj_mat, row.length = g.adj_mat.length)
    (hs : ∀ i < g.adj_mat.length, ∀ j < g.adj_mat.length, entry g i j = entry g j i)
    (hd : ∀ i < g.adj_mat.length, entry g i i ≠ 1) :
    (∀ p : Nat × Nat, p ∈ g.unique_bonds ↔ p.1 < p.2 ∧ entry g p.1 p.2 = 1)
    ∧ g.unique_bonds.Nodup := by
  constructor
  · intro p
    constructor
    · intro hp
      have hb := unique_bonds_mem_bounds hsq hd hp
      rw [mem_unique_bonds] at hp
      obtain ⟨⟨a, b⟩, hq, hpq⟩ := hp
      rw [mem_argwhere] at hq
      obtain ⟨h1, h2, h3⟩ := hq
      have hrow : (g.adj_mat.getD a []).length = g.adj_mat.length := by
        apply hsq
        rw [List.getD_eq_getElem _ _ h1]
        exact List.getElem_mem h1
      have h2' : b < g.adj_mat.length := hrow ▸ h2
      refine ⟨hb.1, ?_⟩
      subst hpq
      show entry g (min a b) (max a b) = 1
      rcases Nat.lt_trichotomy a b with hab | hab | hab
      · rw [Nat.min_eq_left hab.le, Nat.max_eq_right hab.le]
        exact h3
      · exfalso
        subst hab
        exact hd a h1 h3
      · rw [Nat.min_eq_right hab.le, Nat.max_eq_left hab.le]
        rw [hs b h2' a h1]
        exact h3
    · rintro ⟨hlt, hent⟩
      rw [mem_unique_bonds]
      have h1 : p.1 < g.adj_mat.length := by
        by_contra hge
        push_neg at hge
        rw [entry, List.getD_eq_default _ _ hge] at hent
        simp at hent
      have hrow : (g.adj_mat.getD p.1 []).length = g.adj_mat.length := by
        apply hsq
        rw [List.getD_eq_getElem _ _ h1]
        exact List.getElem_mem h1
      have h2 : p.2 < (g.adj_mat.getD p.1 []).length := by
        by_contra hge
        push_neg at hge
        rw [entry, List.getD_eq_default _ _ hge] at hent
        simp at hent
      refine ⟨(p.1, p.2), ?_, ?_⟩
      · rw [mem_argwhere]
        exact ⟨h1, h2, hent⟩
      · show (min p.1 p.2, max p.1 p.2) = p
        rw [Nat.min_eq_left hlt.le, Nat.max_eq_right hlt.le]
  · exact ((List.perm_insertionSort pairLE _).nodup_iff).mpr (List.nodup_dedup _)

/-- C5 witness: the specification instantiated on the triangle graph, all
hypotheses discharged by computation. -/
theorem unique_bonds_spec_witness :
    (∀ p : Nat × Nat, p ∈ triGraph.unique_bonds ↔ p.1 < p.2 ∧ entry triGraph p.1 p.2 = 1)
    ∧ triGraph.unique_bonds.Nodup :=
  unique_bonds_spec triGraph (by decide) (by decide) (by decide)

/-! Classification (claim C6). -/

/-- Membership through the first-appearance accumulation loop. -/
theorem mem_uniqAux {x : CNAP} :
    ∀ {l acc : List CNAP}, x ∈ uniqAux l acc ↔ x ∈ acc ∨ x ∈ l := by
  intro l
  induction l with
  | nil => intro acc; simp [uniqAux]
  | cons y ys ih =>
    intro acc
    show x ∈ uniqAux ys (if y ∈ acc then acc else acc ++ [y]) ↔ _
    rw [ih]
    by_cases hy : y ∈ acc
    · rw [if_pos hy]
      simp only [List.mem_cons]
      constructor
      · rintro (h | h)
        · exact Or.inl h
        · exact Or.inr (Or.inr h)
      · rintro (h | rfl | h)
        · exact Or.inl h
        · exact Or.inl hy
        · exact Or.inr h
    · rw [if_neg hy]
      simp only [List.mem_append, List.mem_singleton, List.mem_cons]
      tauto

/-- The accumulation loop keeps the accumulator duplicate-free. -/
theorem nodup_uniqAux :
    ∀ {l acc : List CNAP}, acc.Nodup → (uniqAux l acc).Nodup := by
  intro l
  induction l with
  | nil => intro acc h; exact h
  | cons y ys ih =>
    intro acc h
    show ((uniqAux ys (if y ∈ acc then acc else acc ++ [y])).Nodup)
    by_cases hy : y ∈ acc
    · rw [if_pos hy]
      exact ih h
    · rw [if_neg hy]
      refine ih ?_
      rw [← List.concat_eq_append]
      exact h.concat hy

/-- The distinct CNAPs are exactly the input's values, without
duplicates. -/
theorem unique_CNAPs_spec (CNAPs : List CNAP) :
    (∀ x : CNAP, x ∈ unique_CNAPs CNAPs ↔ x ∈ CNAPs) ∧ (unique_CNAPs CNAPs).Nodup := by
  constructor
  · intro x
    rw [unique_CNAPs, mem_uniqAux]
    simp
  · exact nodup_uniqAux (List.nodup_nil)

/-- Counting lemma: filters by a duplicate-free complete list of keys
partition a list, so the filtered lengths sum to the full length. -/
theorem sum_filter_partition (f : Nat → CNAP) :
    ∀ (keys : List CNAP) (L : List Nat), keys.Nodup → (∀ i ∈ L, f i ∈ keys) →
      (keys.map (fun key => (L.filter (fun i => decide (f i = key))).length)).sum = L.length := by
  intro keys
  induction keys with
  | nil =>
    intro L _ hL
    have : L = [] := by
      rw [List.eq_nil_iff_forall_not_mem]
      intro i hi
      exact absurd (hL i hi) (List.not_mem_nil _)
    subst this
    simp
  | cons k ks ih =>
    intro L hnd hL
    have hknotin : k ∉ ks := (List.nodup_cons.mp hnd).1
    have hksnd : ks.Nodup := (List.nodup_cons.mp hnd).2
    rw [List.map_cons, List.sum_cons]
    have htail : ks.map (fun key => (L.filter (fun i => decide (f i = key))).length)
        = ks.map (fun key =>
            (((L.filter (fun i => !decide (f i = k))).filter (fun i => decide (f i = key)))).length) := by
      apply List.map_congr_left
      intro key hkey
      have hne : key ≠ k := by
        intro he
        exact hknotin (he ▸ hkey)
      rw [List.filter_filter]
      congr 1
      apply List.filter_congr
      intro i _
      by_cases hfi : f i = key
      · simp [hfi, hne]
      · simp [hfi]
    rw [htail]
    rw [ih (L.filter (fun i => !decide (f i = k))) hksnd ?complete]
    case complete =>
      intro i hi
      rw [List.mem_filter] at hi
      have h1 := hL i hi.1
      have h2 : ¬ f i = k := by
        have := hi.2
        simpa using this
      rcases List.mem_cons.mp h1 with h | h
      · exact absurd h h2
      · exact h
    have := List.length_eq_length_filter_add (l := L) (fun i => decide (f i = k))
    omega

/-- C6: `group_CNAPs` partitions the index set: one group per distinct
CNAP, each group holding exactly the indices carrying that CNAP, every
index in exactly one group, and the group sizes summing to the input
length. -/
theorem group_CNAPs_partition (CNAPs : List CNAP) :
    ((group_CNAPs CNAPs).2.length = (group_CNAPs CNAPs).1.length)
    ∧ (∀ k, k < (group_CNAPs CNAPs).1.length → ∀ i : Nat,
        (i ∈ (group_CNAPs CNAPs).2.getD k [] ↔
          i < CNAPs.length ∧ CNAPs.getD i [] = (group_CNAPs CNAPs).1.getD k []))
    ∧ (∀ i, i < CNAPs.length →
        ∃! k, k < (group_CNAPs CNAPs).1.length ∧ i ∈ (group_CNAPs CNAPs).2.getD k [])
    ∧ ((group_CNAPs CNAPs).2.map List.length).sum = CNAPs.length := by
  have hgrp : (group_CNAPs CNAPs).2 = (unique_CNAPs CNAPs).map (matching CNAPs) := rfl
  have hkeys : (group_CNAPs CNAPs).1 = unique_CNAPs CNAPs := rfl
  have hlen : (group_CNAPs CNAPs).2.length = (group_CNAPs CNAPs).1.length := by
    rw [hgrp, hkeys, List.length_map]
  have hgetD : ∀ k, k < (unique_CNAPs CNAPs).length →
      (group_CNAPs CNAPs).2.getD k [] = matching CNAPs ((unique_CNAPs CNAPs).getD k []) := by
    intro k hk
    rw [hgrp, List.getD_eq_getElem _ _ (by simpa using hk), List.getElem_map,
      List.getD_eq_getElem _ _ hk]
  have hmem : ∀ k, k < (unique_CNAPs CNAPs).length → ∀ i : Nat,
      (i ∈ (group_CNAPs CNAPs).2.getD k [] ↔
        i < CNAPs.length ∧ CNAPs.getD i [] = (unique_CNAPs CNAPs).getD k []) := by
    intro k hk i
    rw [hgetD k hk, matching, List.mem_filter, List.mem_range]
    simp
  refine ⟨hlen, ?_, ?_, ?_⟩
  · intro k hk i
    rw [hkeys] at hk ⊢
    exact hmem k hk i
  · intro i hi
    have hiv : CNAPs.getD i [] ∈ unique_CNAPs CNAPs := by
      rw [(unique_CNAPs_spec CNAPs).1, List.getD_eq_getElem _ _ hi]
      exact List.getElem_mem hi
    obtain ⟨k, hk, hkv⟩ := List.mem_iff_getElem.mp hiv
    refine ⟨k, ⟨by rw [hkeys]; exact hk, ?_⟩, ?_⟩
    · rw [(hmem k hk i)]
      exact ⟨hi, by rw [List.getD_eq_getElem _ _ hk, hkv]⟩
    · rintro k' ⟨hk', hik'⟩
      rw [hkeys] at hk'
      rw [hmem k' hk' i] at hik'
      have h1 : (unique_CNAPs CNAPs).getD k' [] = (unique_CNAPs CNAPs).getD k [] := by
        rw [← hik'.2, List.getD_eq_getElem _ _ hk, hkv]
      rw [List.getD_eq_getElem _ _ hk', List.getD_eq_getElem _ _ hk] at h1
      exact ((unique_CNAPs_spec CNAPs).2.getElem_inj_iff).mp h1
  · rw [hgrp, List.map_map]
    have : (List.length ∘ matching CNAPs) = fun key =>
        ((List.range CNAPs.length).filter (fun i => decide (CNAPs.getD i [] = key))).length := by
      funext key
      rfl
    rw [this]
    rw [sum_filter_partition (fun i => CNAPs.getD i []) (unique_CNAPs CNAPs)
      (List.range CNAPs.length) (unique_CNAPs_spec CNAPs).2 ?_, List.length_range]
    intro i hi
    rw [List.mem_range] at hi
    rw [(unique_CNAPs_spec CNAPs).1]
    show CNAPs.getD i [] ∈ CNAPs
    rw [List.getD_eq_getElem _ _ hi]
    exact List.getElem_mem hi

/-! Construction without shape validation (claim C7) and the mutation of
the caller's matrix (claim C9). -/

/-- Writing zero at an index leaves zero there (or the row unchanged when
out of range, where the default already reads zero). -/
theorem set_getD_self (row : List Nat) (i : Nat) : (row.set i 0).getD i 0 = 0 := by
  by_cases h : i < row.length
  · rw [List.getD_eq_getElem _ _ (by simpa using h)]
    exact List.getElem_set_self _
  · rw [List.getD_eq_default]
    simpa using h

/-- Row `i` of the diagonal fill started at offset `k`. -/
theorem fillDiagAux_getD :
    ∀ (m : List (List Nat)) (k i : Nat),
      (fillDiagAux k m).getD i [] = (m.getD i []).set (k + i) 0 := by
  intro m
  induction m with
  | nil => intro k i; simp [fillDiagAux]
  | cons row rest ih =>
    intro k i
    cases i with
    | zero => simp [fillDiagAux]
    | succ j =>
      show (fillDiagAux (k + 1) rest).getD j [] = (rest.getD j []).set (k + (j + 1)) 0
      rw [ih (k + 1) j]
      congr 1
      omega

/-- The diagonal fill preserves the number of rows. -/
theorem fillDiagAux_length :
    ∀ (m : List (List Nat)) (k : Nat), (fillDiagAux k m).length = m.length := by
  intro m
  induction m with
  | nil => intro k; rfl
  | cons row rest ih =>
    intro k
    show (fillDiagAux (k + 1) rest).length + 1 = rest.length + 1
    rw [ih]

/-- After the diagonal fill every diagonal entry reads zero. -/
theorem fill_diagonal_getD_diag (m : List (List Nat)) (i : Nat) :
    ((fill_diagonal m).getD i []).getD i 0 = 0 := by
  rw [fill_diagonal, fillDiagAux_getD]
  show ((m.getD i []).set (0 + i) 0).getD i 0 = 0
  rw [Nat.zero_add]
  exact set_getD_self _ _

/-- C7 amended: Graph construction validates nothing about the matrix
shape. Every list-of-rows input - square or not - yields a Graph whose
node count is the number of rows and whose diagonal reads zero after the
default fill. (In the source, only arrays of dimension below 2 fail, and
inside `np.fill_diagonal` rather than in any shape check.) -/
theorem init_no_shape_validation (adj_mat : List (List Nat)) (node_positions : List Pos)
    (root_node : Option Int) :
    (Graph.init adj_mat node_positions true root_node).number_of_nodes = adj_mat.length
    ∧ ∀ i : Nat, entry (Graph.init adj_mat node_positions true root_node) i i = 0 := by
  constructor
  · show (fill_diagonal adj_mat).length = adj_mat.length
    exact fillDiagAux_length adj_mat 0
  · intro i
    show ((fill_diagonal adj_mat).getD i []).getD i 0 = 0
    exact fill_diagonal_getD_diag adj_mat i

/-- Clearing one entry is the identity exactly when that entry already
reads zero. -/
theorem set_zero_eq_self_iff (row : List Nat) :
    ∀ n : Nat, (row.set n 0 = row ↔ row.getD n 0 = 0) := by
  induction row with
  | nil => intro n; simp
  | cons a l ih =>
    intro n
    cases n with
    | zero =>
      show (0 :: l = a :: l) ↔ a = 0
      rw [List.cons_eq_cons]
      constructor
      · rintro ⟨h, _⟩; exact h.symm
      · intro h; exact ⟨h.symm, rfl⟩
    | succ j =>
      show (a :: l.set j 0 = a :: l) ↔ l.getD j 0 = 0
      rw [List.cons_eq_cons]
      rw [ih j]
      constructor
      · rintro ⟨_, h⟩; exact h
      · intro h; exact ⟨rfl, h⟩

/-- The diagonal fill is the identity exactly when the (offset) diagonal
already reads zero. -/
theorem fillDiagAux_eq_self :
    ∀ (m : List (List Nat)) (k : Nat),
      (fillDiagAux k m = m ↔ ∀ i : Nat, (m.getD i []).getD (k + i) 0 = 0) := by
  intro m
  induction m with
  | nil => intro k; simp [fillDiagAux]
  | cons row rest ih =>
    intro k
    show (row.set k 0 :: fillDiagAux (k + 1) rest = row :: rest) ↔ _
    rw [List.cons_eq_cons, set_zero_eq_self_iff, ih (k + 1)]
    constructor
    · rintro ⟨h0, hrest⟩ i
      cases i with
      | zero => simpa using h0
      | succ j =>
        have h := hrest j
        have he : k + 1 + j = k + (j + 1) := by omega
        rw [he] at h
        simpa using h
    · intro hall
      refine ⟨by simpa using hall 0, fun j => ?_⟩
      have h := hall (j + 1)
      have he : k + 1 + j = k + (j + 1) := by omega
      rw [he]
      simpa using h

/-- C9 amended: constructing a Graph with the default diagonal fill
aliases the caller's matrix and zeroes its diagonal in place, so the
caller's matrix survives construction unchanged exactly when its diagonal
was already zero; `make_subgraph`, by contrast, works on a fancy-indexing
copy and leaves the parent graph's matrix unchanged. -/
theorem init_frame_spec (adj_mat : List (List Nat)) :
    (callerMatrixAfterInit adj_mat true = adj_mat ↔
      ∀ i : Nat, (adj_mat.getD i []).getD i 0 = 0)
    ∧ ∀ (g : Graph) (nodes : List Int), (make_subgraphWithParent g nodes).2 = g.adj_mat := by
  constructor
  · show fill_diagonal adj_mat = adj_mat ↔ _
    rw [fill_diagonal, fillDiagAux_eq_self]
    constructor
    · intro h i
      have := h i
      rwa [Nat.zero_add] at this
    · intro h i
      rw [Nat.zero_add]
      exact h i
  · intro g nodes
    rfl

/-! Out-of-range subgraph indices (claim C8). -/

/-- numpy rejects exactly the indices below `-n` or at least `n`. -/
theorem npIndex_eq_none {n : Nat} {i : Int}
    (h : i < -(n : Int) ∨ (n : Int) ≤ i) : npIndex n i = none := by
  unfold npIndex
  have h1 : ¬ (0 ≤ i ∧ i < (n : Int)) := by omega
  have h2 : ¬ (-(n : Int) ≤ i ∧ i < 0) := by omega
  rw [if_neg h1, if_neg h2]

/-- An index array holding any rejected value resolves to `IndexError`. -/
theorem resolveIndices_err {n : Nat} :
    ∀ {l : List Int}, (∃ i ∈ l, npIndex n i = none) →
      resolveIndices n l = Except.error Err.indexError := by
  intro l
  induction l with
  | nil => intro h; simp at h
  | cons x xs ih =>
    intro h
    obtain ⟨i, hi, hnone⟩ := h
    simp only [resolveIndices]
    cases hx : npIndex n x with
    | none => rfl
    | some k =>
      have hixs : i ∈ xs := by
        rcases List.mem_cons.mp hi with h1 | h1
        · subst h1
          rw [hx] at hnone
          exact Option.noConfusion hnone
        · exact h1
      rw [ih ⟨i, hixs, hnone⟩]
      rfl

/-- C8 amended: `make_subgraph` fails with the index-range condition
whenever some index lies outside `[-N, N)`; values inside `[-N, 0)` are
not rejected - numpy wraps them to `N + i` (see the counterexample). -/
theorem make_subgraph_out_of_range (g : Graph) (nodes : List Int)
    (h : ∃ i ∈ nodes, i < -(g.adj_mat.length : Int) ∨ (g.adj_mat.length : Int) ≤ i) :
    g.make_subgraph nodes = Except.error Err.indexError := by
  obtain ⟨i, hi, hout⟩ := h
  unfold Graph.make_subgraph
  rw [resolveIndices_err ⟨i, hi, npIndex_eq_none hout⟩]
  rfl

/-- C8 witness: the amended statement applied to the two-node graph and
the index 5, the hypothesis discharged by computation. -/
theorem make_subgraph_out_of_range_witness :
    (∃ i ∈ ([5] : List Int),
        i < -(g2posGraph.adj_mat.length : Int) ∨ (g2posGraph.adj_mat.length : Int) ≤ i)
    ∧ g2posGraph.make_subgraph [5] = Except.error Err.indexError :=
  ⟨by decide, make_subgraph_out_of_range g2posGraph [5] (by decide)⟩

/-! Per-node signature counts (claim C10). -/

/-- The sequential exception-propagating map preserves the length on
success. -/
theorem mapE_length {α β : Type} {f : α → Except Err β} :
    ∀ {l : List α} {l' : List β}, mapE f l = Except.ok l' → l'.length = l.length := by
  intro l
  induction l with
  | nil =>
    intro l' h
    obtain rfl : ([] : List β) = l' := Except.ok.inj h
    rfl
  | cons x xs ih =>
    intro l' h
    unfold mapE at h
    cases hfx : f x with
    | error e => rw [hfx] at h; exact Except.noConfusion h
    | ok y =>
      rw [hfx] at h
      cases hm : mapE f xs with
      | error e => rw [hm] at h; exact Except.noConfusion h
      | ok ys =>
        rw [hm] at h
        obtain rfl : y :: ys = l' := Except.ok.inj h
        show ys.length + 1 = xs.length + 1
        rw [ih hm]

/-- One append, viewed through `getD`. -/
theorem appendAt_getD (l : List (List Sig)) (n m : Nat) (s : Sig) (hn : n < l.length) :
    (appendAt l n s).getD m [] = if m = n then l.getD n [] ++ [s] else l.getD m [] := by
  by_cases hmn : m = n
  · subst hmn
    rw [if_pos rfl, appendAt, List.getD_eq_getElem _ _ (by simpa using hn)]
    exact List.getElem_set_self _
  · rw [if_neg hmn, appendAt, List.getD_eq_getElem?_getD,
      List.getElem?_set_ne (fun he => hmn he.symm), ← List.getD_eq_getElem?_getD]

/-- One append, length view. -/
theorem appendAt_getD_length (l : List (List Sig)) (n m : Nat) (s : Sig) (hn : n < l.length) :
    ((appendAt l n s).getD m []).length
      = (l.getD m []).length + (if m = n then 1 else 0) := by
  rw [appendAt_getD l n m s hn]
  by_cases h : m = n
  · subst h
    rw [if_pos rfl, if_pos rfl, List.length_append]
    rfl
  · rw [if_neg h, if_neg h]
    omega

/-- The distribution loop preserves the accumulator's length. -/
theorem distributeSigs_length :
    ∀ (ps : List (Sig × (Nat × Nat))) (acc : List (List Sig)),
      (distributeSigs ps acc).length = acc.length := by
  intro ps
  induction ps with
  | nil => intro acc; rfl
  | cons p ps ih =>
    intro acc
    show (distributeSigs ps (appendAt (appendAt acc p.2.1 p.1) p.2.2 p.1)).length = acc.length
    rw [ih, appendAt, List.length_set, appendAt, List.length_set]

/-- After distributing, node `n` holds one signature per pair whose bond
touches `n` (bond endpoints in range and distinct). -/
theorem distributeSigs_getD :
    ∀ (ps : List (Sig × (Nat × Nat))) (acc : List (List Sig)) (n : Nat),
      n < acc.length →
      (∀ p ∈ ps, p.2.1 < acc.length ∧ p.2.2 < acc.length ∧ p.2.1 ≠ p.2.2) →
      ((distributeSigs ps acc).getD n []).length
        = (acc.getD n []).length + ps.countP (fun p => p.2.1 == n || p.2.2 == n) := by
  intro ps
  induction ps with
  | nil =>
    intro acc n _ _
    simp [distributeSigs]
  | cons p ps ih =>
    intro acc n hn hb
    have hp := hb p (List.mem_cons_self p ps)
    have hstep : distributeSigs (p :: ps) acc
        = distributeSigs ps (appendAt (appendAt acc p.2.1 p.1) p.2.2 p.1) := rfl
    have hlen1 : (appendAt acc p.2.1 p.1).length = acc.length := by
      rw [appendAt, List.length_set]
    have hlen2 : (appendAt (appendAt acc p.2.1 p.1) p.2.2 p.1).length = acc.length := by
      rw [appendAt, List.length_set, hlen1]
    rw [hstep, ih _ n (by rw [hlen2]; exact hn) ?hbnds]
    case hbnds =>
      intro q hq
      have hql := hb q (List.mem_cons_of_mem p hq)
      rw [hlen2]
      exact hql
    rw [appendAt_getD_length _ _ _ _ (by rw [hlen1]; exact hp.2.1),
      appendAt_getD_length _ _ _ _ hp.1, List.countP_cons]
    by_cases h1 : p.2.1 = n
    · by_cases h2 : p.2.2 = n
      · exact absurd (h1.trans h2.symm) hp.2.2
      · have hb1 : (p.2.1 == n || p.2.2 == n) = true := by
          simp [h1]
        rw [hb1, if_pos h1.symm, if_neg (fun he : n = p.2.2 => h2 he.symm)]
        simp
        omega
    · by_cases h2 : p.2.2 = n
      · have hb1 : (p.2.1 == n || p.2.2 == n) = true := by
          simp [h2]
        rw [hb1, if_neg (fun he : n = p.2.1 => h1 he.symm), if_pos h2.symm]
        simp
        omega
      · have hb1 : (p.2.1 == n || p.2.2 == n) = false := by
          simp [h1, h2]
        rw [hb1, if_neg (fun he : n = p.2.1 => h1 he.symm),
          if_neg (fun he : n = p.2.2 => h2 he.symm)]
        simp

/-- Counting on the zipped list equals counting on the bonds when the
lengths agree. -/
theorem countP_zip_snd {sigs : List Sig} {bonds : List (Nat × Nat)}
    (hlen : sigs.length = bonds.length) (q : (Nat × Nat) → Bool) :
    (sigs.zip bonds).countP (fun p => q p.2) = bonds.countP q := by
  have hmap : (sigs.zip bonds).map Prod.snd = bonds :=
    List.map_snd_zip sigs bonds (le_of_eq hlen.symm)
  conv_rhs => rw [← hmap]
  rw [List.countP_map]
  rfl

/-- The two equality-testing instances in play count alike. -/
theorem count_eq_count (l : List Sig) (s : Sig) :
    l.count s = @List.count Sig instBEqOfDecidableEq s l := by
  unfold List.count
  apply List.countP_congr
  intro x _
  show (x == s) = true ↔ decide (x = s) = true
  by_cases h : x = s
  · subst h; simp
  · simp [h]

/-- The counts produced by `get_occurrences` sum to the input length (the
multiplicities of the distinct values exhaust the list). -/
theorem get_occurrences_sum (l : List Sig) :
    ((get_occurrences l).map (fun p => p.2)).sum = l.length := by
  unfold get_occurrences np_unique_sigs
  rw [List.map_map]
  rw [show ((fun p : Sig × Nat => p.2) ∘ fun s => (s, l.count s)) = fun s => l.count s from rfl]
  rw [show (fun s => l.count s) = fun s => @List.count Sig instBEqOfDecidableEq s l by
    funext s; exact count_eq_count l s]
  exact ((List.perm_insertionSort sigLE l.dedup).map _).sum_eq.trans
    (List.sum_map_count_dedup_eq_length l)

/-- getD through a map, at an in-range index. -/
theorem getD_map_lt {α β : Type} (f : α → β) (l : List α) (n : Nat) (d : β) (d' : α)
    (h : n < l.length) : (l.map f).getD n d = f (l.getD n d') := by
  rw [List.getD_eq_getElem _ _ (by simpa using h), List.getD_eq_getElem _ _ h,
    List.getElem_map]

/-- getD on a replicate of empty lists. -/
theorem getD_replicate_nil (N n : Nat) :
    (List.replicate N ([] : List Sig)).getD n [] = [] := by
  by_cases h : n < N
  · rw [List.getD_eq_getElem _ _ (by simpa using h)]
    exact List.getElem_replicate _ _
  · rw [List.getD_eq_default]
    simpa using h

/-- C10: whenever `get_CNAPs` succeeds on a square graph whose diagonal
carries no 1-entry, the counts in node `n`'s CNAP sum to the number of
bonds of `unique_bonds` incident to `n` (the node's degree); a node with
no incident bond receives the empty CNAP. -/
theorem get_CNAPs_counts_sum_deg (g : Graph) (cnaps : List CNAP)
    (hok : get_CNAPs g = Except.ok cnaps)
    (hsq : ∀ row ∈ g.adj_mat, row.length = g.adj_mat.length)
    (hd : ∀ i < g.adj_mat.length, entry g i i ≠ 1)
    (n : Nat) (hn : n < g.number_of_nodes) :
    ((cnaps.getD n []).map (fun p => p.2)).sum
        = g.unique_bonds.countP (fun b => b.1 == n || b.2 == n)
    ∧ (g.unique_bonds.countP (fun b => b.1 == n || b.2 == n) = 0 →
        cnaps.getD n [] = []) := by
  unfold get_CNAPs at hok
  cases hcs : compute_signatures g with
  | error e => rw [hcs] at hok; exact Except.noConfusion hok
  | ok sigs =>
    rw [hcs] at hok
    have hcn : cnaps = (distributeSigs (sigs.zip g.unique_bonds)
        (List.replicate g.number_of_nodes [])).map get_occurrences :=
      (Except.ok.inj hok).symm
    have hslen : sigs.length = g.unique_bonds.length := by
      unfold compute_signatures at hcs
      cases hsub : get_cns_subgraphs g with
      | error e => rw [hsub] at hcs; exact Except.noConfusion hcs
      | ok subs =>
        rw [hsub] at hcs
        have h1 : subs.length = g.unique_bonds.length := by
          unfold get_cns_subgraphs at hsub
          exact mapE_length hsub
        rw [mapE_length hcs, h1]
    have hbnds : ∀ p ∈ sigs.zip g.unique_bonds,
        p.2.1 < (List.replicate g.number_of_nodes ([] : List Sig)).length
        ∧ p.2.2 < (List.replicate g.number_of_nodes ([] : List Sig)).length
        ∧ p.2.1 ≠ p.2.2 := by
      intro p hp
      have hb2 : p.2 ∈ g.unique_bonds := by
        obtain ⟨s, b⟩ := p
        exact (List.of_mem_zip hp).2
      have hbb := unique_bonds_mem_bounds hsq hd hb2
      rw [List.length_replicate]
      show p.2.1 < g.adj_mat.length ∧ p.2.2 < g.adj_mat.length ∧ p.2.1 ≠ p.2.2
      omega
    have hspn_len : (distributeSigs (sigs.zip g.unique_bonds)
        (List.replicate g.number_of_nodes [])).length = g.number_of_nodes := by
      rw [distributeSigs_length, List.length_replicate]
    have hget : cnaps.getD n [] = get_occurrences
        ((distributeSigs (sigs.zip g.unique_bonds)
          (List.replicate g.number_of_nodes [])).getD n []) := by
      rw [hcn]
      exact getD_map_lt get_occurrences _ n [] [] (by rw [hspn_len]; exact hn)
    have hlen_spn : ((distributeSigs (sigs.zip g.unique_bonds)
        (List.replicate g.number_of_nodes [])).getD n []).length
        = g.unique_bonds.countP (fun b => b.1 == n || b.2 == n) := by
      rw [distributeSigs_getD _ _ n (by rw [List.length_replicate]; exact hn) hbnds,
        getD_replicate_nil]
      rw [countP_zip_snd hslen (fun b => b.1 == n || b.2 == n)]
      simp
    constructor
    · rw [hget, get_occurrences_sum, hlen_spn]
    · intro h0
      rw [hget]
      have hz : ((distributeSigs (sigs.zip g.unique_bonds)
          (List.replicate g.number_of_nodes [])).getD n []).length = 0 := by
        rw [hlen_spn, h0]
      rw [List.length_eq_zero.mp hz]
      rfl

/-- The CNAPs that `get_CNAPs` produces on the two-node one-bond graph,
used to instantiate the C10 witness. -/
def cnaps2 : List CNAP := [[((0, 0, 0), 1)], [((0, 0, 0), 1)]]

/-- C10 witness: the statement applied at node 0 of the two-node graph,
all hypotheses discharged by computation. -/
theorem get_CNAPs_counts_sum_deg_witness :
    (get_CNAPs g2posGraph = Except.ok cnaps2 ∧ 0 < g2posGraph.number_of_nodes)
    ∧ (((cnaps2.getD 0 []).map (fun p => p.2)).sum
        = g2posGraph.unique_bonds.countP (fun b => b.1 == 0 || b.2 == 0)
      ∧ (g2posGraph.unique_bonds.countP (fun b => b.1 == 0 || b.2 == 0) = 0 →
          cnaps2.getD 0 [] = [])) :=
  ⟨⟨by decide, by decide⟩,
    get_CNAPs_counts_sum_deg g2posGraph cnaps2 (by decide) (by decide) (by decide) 0 (by decide)⟩

end CnapLib
